import Mathlib

/-
Verification of the cache-tagged module resolver of the
simon42-dashboard-strategy repository (simon42-module-loader.js).

The repository carries three historical revisions of this loader.  The
revision verified here is the one the repository's own CODE_ANALYSIS.md
report describes (the console.debug line numbers it cites - 40-41,
60-61, 79-80, 102-103 and 140-141 - match this revision exactly): tag
discovery scans the document's module script tags first, then the
module's own URL, then the page URL, and path resolution returns an
absolute href.  The two superseded revisions embedded alongside it
differ in discovery order and in rebasing the result to a relative
path; where a claim matches only a superseded revision this is recorded
in the accompanying results.

Modelling conventions:
  - JavaScript strings are Lean Strings (lists of characters); the
    includes / startsWith operations are modelled on String.data.
  - The host's WHATWG URL facility is modelled for hierarchical
    scheme://host/path?query URLs, without percent-encoding,
    dot-segment normalisation, fragments, ports or credentials; inputs
    outside this fragment are modelled as parse failures (a thrown
    TypeError).  URLSearchParams is modelled as an association list
    with WHATWG get / set semantics (set replaces the first pair with
    the given name and removes the others, or appends).
  - The module-level mutable cache (cachedHacstag,
    hacstagDetectionAttempted) is modelled by explicit state passing
    (LoaderState).
  - The host environment (the module's own URL import.meta.url, the
    document's module-typed script elements, window.location.href) is
    a record Env; an absent global is none.
  - The dynamic module-import facility is an abstract function
    String -> Except err mod.
-/

/-! ### JavaScript-style string tests -/

/- Bool test: pat is a prefix of l. -/
def listIsPre : List Char → List Char → Bool
  | [], _ => true
  | _ :: _, [] => false
  | a :: as, b :: bs => a == b && listIsPre as bs

/- Bool test: pat occurs as a contiguous substring of l. -/
def listHasSub (pat : List Char) : List Char → Bool
  | [] => pat.isEmpty
  | b :: bs => listIsPre pat (b :: bs) || listHasSub pat bs

/- JavaScript s.includes(pat). -/
def jsIncludes (s pat : String) : Bool := listHasSub pat.data s.data

/- JavaScript s.startsWith(pat). -/
def jsStartsWith (s pat : String) : Bool := listIsPre pat.data s.data

/- JavaScript s.includes of the single character '?'. -/
def hasQm (s : String) : Bool := decide ('?' ∈ s.data)

theorem listIsPre_iff (p l : List Char) : listIsPre p l = true ↔ ∃ t, p ++ t = l := by
  induction p generalizing l with
  | nil => simp [listIsPre]
  | cons a as ih =>
    cases l with
    | nil => simp [listIsPre]
    | cons b bs =>
      simp only [listIsPre, Bool.and_eq_true, beq_iff_eq, ih, List.cons_append,
        List.cons.injEq]
      constructor
      · rintro ⟨rfl, t, rfl⟩; exact ⟨t, rfl, rfl⟩
      · rintro ⟨t, h1, h2⟩; exact ⟨h1, t, h2⟩

theorem listHasSub_iff (p l : List Char) :
    listHasSub p l = true ↔ ∃ s t, s ++ p ++ t = l := by
  induction l with
  | nil =>
    cases p with
    | nil => simp [listHasSub, List.isEmpty]
    | cons c cs => simp [listHasSub, List.isEmpty]
  | cons b bs ih =>
    simp only [listHasSub, Bool.or_eq_true, listIsPre_iff, ih]
    constructor
    · rintro (⟨t, ht⟩ | ⟨s, t, h⟩)
      · exact ⟨[], t, by simpa using ht⟩
      · exact ⟨b :: s, t, by simp [h]⟩
    · rintro ⟨s, t, h⟩
      cases s with
      | nil => exact Or.inl ⟨t, by simpa using h⟩
      | cons c s =>
        rw [List.cons_append, List.cons_append] at h
        injection h with h1 h2
        exact Or.inr ⟨s, t, h2⟩

theorem listHasSub_of_append_left (a b l : List Char)
    (h : listHasSub (a ++ b) l = true) : listHasSub a l = true := by
  rw [listHasSub_iff] at h ⊢
  obtain ⟨s, t, h⟩ := h
  exact ⟨s, b ++ t, by rw [← h]; simp⟩

theorem listHasSub_cons (pat : List Char) (c : Char) (l : List Char)
    (h : listHasSub pat (c :: l) = true) :
    listIsPre pat (c :: l) = true ∨ listHasSub pat l = true := by
  simpa [listHasSub, Bool.or_eq_true] using h

/-! ### Splitting character lists -/

/- Split at the first occurrence of c: the part before it, and (when c
occurs) the part after it. -/
def splitFirst (c : Char) : List Char → List Char × Option (List Char)
  | [] => ([], none)
  | a :: as =>
    if a = c then ([], some as)
    else (a :: (splitFirst c as).1, (splitFirst c as).2)

theorem splitFirst_fst_not_mem (c : Char) (l : List Char) :
    c ∉ (splitFirst c l).1 := by
  induction l with
  | nil => simp [splitFirst]
  | cons a as ih =>
    by_cases h : a = c
    · simp [splitFirst, h]
    · simp [splitFirst, h, Ne.symm h, ih]

theorem splitFirst_recon (c : Char) (l : List Char) :
    l = (splitFirst c l).1 ++
      (match (splitFirst c l).2 with | some r => c :: r | none => []) := by
  induction l with
  | nil => simp [splitFirst]
  | cons a as ih =>
    by_cases h : a = c
    · simp [splitFirst, h]
    · simpa [splitFirst, h] using ih

theorem splitFirst_of_not_mem (c : Char) (l : List Char) (h : c ∉ l) :
    splitFirst c l = (l, none) := by
  induction l with
  | nil => simp [splitFirst]
  | cons a as ih =>
    simp only [List.mem_cons, not_or] at h
    simp [splitFirst, Ne.symm h.1, ih h.2]

theorem splitFirst_append (c : Char) (a b : List Char) (h : c ∉ a) :
    splitFirst c (a ++ c :: b) = (a, some b) := by
  induction a with
  | nil => simp [splitFirst]
  | cons x xs ih =>
    simp only [List.mem_cons, not_or] at h
    simp [splitFirst, Ne.symm h.1, ih h.2]

/- Split on every occurrence of c (the groups between occurrences). -/
def splitOnChar (c : Char) : List Char → List (List Char)
  | [] => [[]]
  | a :: as =>
    if a = c then [] :: splitOnChar c as
    else
      match splitOnChar c as with
      | [] => [[a]]
      | g :: gs => (a :: g) :: gs

theorem splitOnChar_ne_nil (c : Char) (l : List Char) : splitOnChar c l ≠ [] := by
  induction l with
  | nil => simp [splitOnChar]
  | cons a as ih =>
    by_cases h : a = c
    · simp [splitOnChar, h]
    · simp only [splitOnChar, h, if_false]
      cases hs : splitOnChar c as with
      | nil => simp
      | cons g gs => simp

theorem splitOnChar_append (c : Char) (a b : List Char) :
    splitOnChar c (a ++ c :: b) = splitOnChar c a ++ splitOnChar c b := by
  induction a with
  | nil => simp [splitOnChar]
  | cons x xs ih =>
    by_cases h : x = c
    · simp [splitOnChar, h, ih]
    · cases hs : splitOnChar c xs with
      | nil => exact absurd hs (splitOnChar_ne_nil c xs)
      | cons g gs =>
        have h2 : splitOnChar c (xs ++ c :: b) = g :: (gs ++ splitOnChar c b) := by
          rw [ih, hs]; rfl
        simp [splitOnChar, h, h2, hs]

theorem splitOnChar_of_not_mem (c : Char) (l : List Char) (h : c ∉ l) :
    splitOnChar c l = [l] := by
  induction l with
  | nil => simp [splitOnChar]
  | cons a as ih =>
    simp only [List.mem_cons, not_or] at h
    simp [splitOnChar, Ne.symm h.1, ih h.2]

theorem splitOnChar_not_mem (c : Char) (l : List Char) :
    ∀ seg ∈ splitOnChar c l, c ∉ seg := by
  induction l with
  | nil => simp [splitOnChar]
  | cons a as ih =>
    by_cases h : a = c
    · subst h
      simp only [splitOnChar, if_true]
      intro seg hseg
      rcases List.mem_cons.mp hseg with rfl | hs
      · simp
      · exact ih seg hs
    · simp only [splitOnChar, h, if_false]
      cases hs : splitOnChar c as with
      | nil => exact absurd hs (splitOnChar_ne_nil c as)
      | cons g gs =>
        intro seg hseg
        rcases List.mem_cons.mp hseg with rfl | hmem
        · have hg : c ∉ g := ih g (by rw [hs]; exact List.mem_cons_self g gs)
          simp only [List.mem_cons, not_or]
          exact ⟨Ne.symm h, hg⟩
        · exact ih seg (by rw [hs]; exact List.mem_cons_of_mem g hmem)

theorem splitOnChar_struct (c : Char) (l g : List Char) (gs : List (List Char))
    (hl : splitOnChar c l = g :: gs) :
    (∃ t, g ++ t = l) ∧ ∀ seg ∈ gs, ∃ s t, s ++ seg ++ t = l := by
  induction l generalizing g gs with
  | nil =>
    simp only [splitOnChar, List.cons.injEq] at hl
    obtain ⟨rfl, rfl⟩ := hl
    exact ⟨⟨[], rfl⟩, by simp⟩
  | cons a as ih =>
    by_cases h : a = c
    · subst h
      simp only [splitOnChar, if_true, List.cons.injEq] at hl
      obtain ⟨rfl, rfl⟩ := hl
      refine ⟨⟨a :: as, rfl⟩, ?_⟩
      intro seg hseg
      cases hs : splitOnChar a as with
      | nil => exact absurd hs (splitOnChar_ne_nil a as)
      | cons g' gs' =>
        rw [hs] at hseg
        obtain ⟨⟨t, ht⟩, hrest⟩ := ih g' gs' hs
        rcases List.mem_cons.mp hseg with rfl | hmem
        · exact ⟨[a], t, by simp [ht]⟩
        · obtain ⟨s, t, hst⟩ := hrest seg hmem
          exact ⟨a :: s, t, by simp [hst]⟩
    · simp only [splitOnChar, h, if_false] at hl
      cases hs : splitOnChar c as with
      | nil => exact absurd hs (splitOnChar_ne_nil c as)
      | cons g' gs' =>
        rw [hs] at hl
        obtain ⟨⟨t, ht⟩, hrest⟩ := ih g' gs' hs
        injection hl with h1 h2
        subst h1; subst h2
        refine ⟨⟨t, by simp [ht]⟩, ?_⟩
        intro seg hseg
        obtain ⟨s, t', hst⟩ := hrest seg hseg
        exact ⟨a :: s, t', by simp [hst]⟩

/-! ### URLSearchParams model -/

/- An ordered list of name/value pairs, as URLSearchParams holds. -/
abbrev Params := List (String × String)

/- Parse one query segment: the part before the first '=' is the name,
the rest (possibly empty) the value. -/
def parsePair (seg : List Char) : String × String :=
  (⟨(splitFirst '=' seg).1⟩,
   ⟨match (splitFirst '=' seg).2 with | some v => v | none => []⟩)

/- Parse a query string (the text after '?'): split on '&', drop empty
segments, parse each segment. -/
def parseQuery (q : List Char) : Params :=
  ((splitOnChar '&' q).filter (fun seg => !seg.isEmpty)).map parsePair

/- Serialize name/value pairs back to query text ("k=v" joined by '&'). -/
def serializeQuery : Params → List Char
  | [] => []
  | kv :: rest =>
    kv.1.data ++ '=' :: kv.2.data ++
      (match rest with | [] => [] | _ :: _ => '&' :: serializeQuery rest)

/- URLSearchParams.get: value of the first pair with the given name. -/
def getParam (k : String) : Params → Option String
  | [] => none
  | kv :: rest => if kv.1 = k then some kv.2 else getParam k rest

def removeParam (k : String) (ps : Params) : Params :=
  ps.filter (fun kv => !(kv.1 == k))

/- URLSearchParams.set: replace the first pair with the given name and
remove the others, or append a new pair at the end. -/
def setParam (k v : String) : Params → Params
  | [] => [(k, v)]
  | kv :: rest => if kv.1 = k then (k, v) :: removeParam k rest else kv :: setParam k v rest

/- Number of pairs carrying the given name. -/
def countKey (k : String) (ps : Params) : Nat :=
  (ps.filter (fun kv => kv.1 == k)).length

theorem stringEta (s : String) : String.mk s.data = s := rfl

theorem countKey_append (k : String) (l r : Params) :
    countKey k (l ++ r) = countKey k l + countKey k r := by
  simp [countKey, List.filter_append]

theorem countKey_of_not_mem (k : String) (l : Params)
    (h : ∀ kv ∈ l, kv.1 ≠ k) : countKey k l = 0 := by
  simp only [countKey, List.length_eq_zero, List.filter_eq_nil_iff]
  intro kv hkv
  simpa using h kv hkv

theorem countKey_removeParam (k : String) (ps : Params) :
    countKey k (removeParam k ps) = 0 := by
  apply countKey_of_not_mem
  intro kv hkv
  have := (List.mem_filter.mp hkv).2
  simpa using this

theorem countKey_cons (k : String) (kv : String × String) (l : Params) :
    countKey k (kv :: l) = (if kv.1 = k then 1 else 0) + countKey k l := by
  by_cases h : kv.1 = k <;> simp [countKey, List.filter_cons, h, Nat.add_comm]

theorem countKey_setParam (k v : String) (ps : Params) :
    countKey k (setParam k v ps) = 1 := by
  induction ps with
  | nil => simp [setParam, countKey, List.filter]
  | cons kv rest ih =>
    by_cases h : kv.1 = k
    · simp only [setParam, h, if_true]
      simp [countKey_cons, countKey_removeParam]
    · simp only [setParam, h, if_false]
      simp [countKey_cons, h, ih]

theorem getParam_setParam (k v : String) (ps : Params) :
    getParam k (setParam k v ps) = some v := by
  induction ps with
  | nil => simp [setParam, getParam]
  | cons kv rest ih =>
    by_cases h : kv.1 = k
    · simp [setParam, h, getParam]
    · simp [setParam, h, getParam, ih]

theorem setParam_of_not_mem (k v : String) (ps : Params)
    (h : ∀ kv ∈ ps, kv.1 ≠ k) : setParam k v ps = ps ++ [(k, v)] := by
  induction ps with
  | nil => simp [setParam]
  | cons kv rest ih =>
    have h1 : kv.1 ≠ k := h kv (List.mem_cons_self kv rest)
    simp only [setParam, h1, if_false, List.cons_append, List.cons.injEq, true_and]
    exact ih (fun kv' hkv' => h kv' (List.mem_cons_of_mem kv hkv'))

theorem setParam_ne_nil (k v : String) (ps : Params) : setParam k v ps ≠ [] := by
  cases ps with
  | nil => simp [setParam]
  | cons kv rest =>
    by_cases h : kv.1 = k <;> simp [setParam, h]

theorem mem_setParam (k v : String) (ps : Params) (kv : String × String)
    (h : kv ∈ setParam k v ps) : kv = (k, v) ∨ kv ∈ ps := by
  induction ps with
  | nil => simpa [setParam] using h
  | cons kv' rest ih =>
    by_cases h1 : kv'.1 = k
    · simp only [setParam, h1, if_true] at h
      rcases List.mem_cons.mp h with rfl | hmem
      · exact Or.inl rfl
      · exact Or.inr (List.mem_cons_of_mem kv' (List.mem_filter.mp hmem).1)
    · simp only [setParam, h1, if_false] at h
      rcases List.mem_cons.mp h with rfl | hmem
      · exact Or.inr (List.mem_cons_self kv rest)
      · rcases ih hmem with h2 | h2
        · exact Or.inl h2
        · exact Or.inr (List.mem_cons_of_mem kv' h2)

theorem getParam_append_of_not_mem (k : String) (l r : Params)
    (h : ∀ kv ∈ l, kv.1 ≠ k) : getParam k (l ++ r) = getParam k r := by
  induction l with
  | nil => simp
  | cons kv rest ih =>
    have h1 : kv.1 ≠ k := h kv (List.mem_cons_self kv rest)
    simp only [List.cons_append, getParam, h1, if_false]
    exact ih (fun kv' hkv' => h kv' (List.mem_cons_of_mem kv hkv'))

/-! ### Well-formed parameter lists and the parse/serialize round trip -/

/- Pairs as produced by parsing: names carry no '&' or '=', values no
'&' (a value may carry '=' since only the first '=' splits a segment). -/
def WFPair (kv : String × String) : Prop :=
  '&' ∉ kv.1.data ∧ '=' ∉ kv.1.data ∧ '&' ∉ kv.2.data

def WFParams (ps : Params) : Prop := ∀ kv ∈ ps, WFPair kv

theorem wf_parseQuery (q : List Char) : WFParams (parseQuery q) := by
  intro kv hkv
  simp only [parseQuery, List.mem_map, List.mem_filter] at hkv
  obtain ⟨seg, ⟨hseg, -⟩, hpair⟩ := hkv
  have hamp : '&' ∉ seg := splitOnChar_not_mem '&' q seg hseg
  have hrecon := splitFirst_recon '=' seg
  subst hpair
  refine ⟨?_, ?_, ?_⟩
  · intro hmem
    apply hamp
    rw [hrecon]
    exact List.mem_append.mpr (Or.inl hmem)
  · exact splitFirst_fst_not_mem '=' seg
  · cases hv : (splitFirst '=' seg).2 with
    | none => simp [parsePair, hv]
    | some v =>
      simp only [parsePair, hv]
      intro hmem
      apply hamp
      rw [hrecon, hv]
      exact List.mem_append.mpr (Or.inr (List.mem_cons_of_mem '=' hmem))

/- Every parsed name is a contiguous substring of the query text. -/
theorem parseQuery_key_sub (q : List Char) (kv : String × String)
    (hkv : kv ∈ parseQuery q) : ∃ s t, s ++ kv.1.data ++ t = q := by
  simp only [parseQuery, List.mem_map, List.mem_filter] at hkv
  obtain ⟨seg, ⟨hseg, -⟩, hpair⟩ := hkv
  cases hs : splitOnChar '&' q with
  | nil => exact absurd hs (splitOnChar_ne_nil '&' q)
  | cons g gs =>
    rw [hs] at hseg
    obtain ⟨⟨t0, ht0⟩, hrest⟩ := splitOnChar_struct '&' q g gs hs
    have hsegsub : ∃ s t, s ++ seg ++ t = q := by
      rcases List.mem_cons.mp hseg with rfl | hmem
      · exact ⟨[], t0, by simpa using ht0⟩
      · exact hrest seg hmem
    obtain ⟨s, t, hst⟩ := hsegsub
    have hkey : kv.1.data = (splitFirst '=' seg).1 := by rw [← hpair]; rfl
    have hrecon := splitFirst_recon '=' seg
    refine ⟨s, (match (splitFirst '=' seg).2 with | some r => '=' :: r | none => []) ++ t, ?_⟩
    rw [hkey]
    calc s ++ (splitFirst '=' seg).1 ++
          ((match (splitFirst '=' seg).2 with | some r => '=' :: r | none => []) ++ t)
        = s ++ ((splitFirst '=' seg).1 ++
            (match (splitFirst '=' seg).2 with | some r => '=' :: r | none => [])) ++ t := by
          simp [List.append_assoc]
      _ = s ++ seg ++ t := by rw [← hrecon]
      _ = q := hst

theorem parseQuery_of_no_amp (s : List Char) (h : '&' ∉ s) (hne : s ≠ []) :
    parseQuery s = [parsePair s] := by
  simp [parseQuery, splitOnChar_of_not_mem '&' s h, List.filter, hne]

theorem parsePair_of_wf (k v : String) (hk : '=' ∉ k.data) :
    parsePair (k.data ++ '=' :: v.data) = (k, v) := by
  simp [parsePair, splitFirst_append '=' k.data v.data hk, stringEta]

theorem parseQuery_serializeQuery (ps : Params) (h : WFParams ps) :
    parseQuery (serializeQuery ps) = ps := by
  induction ps with
  | nil => simp [serializeQuery, parseQuery, splitOnChar, List.filter]
  | cons kv rest ih =>
    obtain ⟨hk1, hk2, hv⟩ := h kv (List.mem_cons_self kv rest)
    have hih := ih (fun kv' h' => h kv' (List.mem_cons_of_mem kv h'))
    cases rest with
    | nil =>
      have hnoamp : '&' ∉ kv.1.data ++ '=' :: kv.2.data := by
        intro hmem
        rcases List.mem_append.mp hmem with h1 | h1
        · exact hk1 h1
        · rcases List.mem_cons.mp h1 with h2 | h2
          · exact absurd h2.symm (by decide)
          · exact hv h2
      have hne : kv.1.data ++ '=' :: kv.2.data ≠ [] := by simp
      calc parseQuery (serializeQuery [kv])
          = parseQuery (kv.1.data ++ '=' :: kv.2.data) := by simp [serializeQuery]
        _ = [parsePair (kv.1.data ++ '=' :: kv.2.data)] := parseQuery_of_no_amp _ hnoamp hne
        _ = [kv] := by rw [parsePair_of_wf kv.1 kv.2 hk2]
    | cons kv2 rest2 =>
      have hser : serializeQuery (kv :: kv2 :: rest2) =
          (kv.1.data ++ '=' :: kv.2.data) ++ '&' :: serializeQuery (kv2 :: rest2) := by
        simp [serializeQuery]
      have hnoamp : '&' ∉ kv.1.data ++ '=' :: kv.2.data := by
        intro hmem
        rcases List.mem_append.mp hmem with h1 | h1
        · exact hk1 h1
        · rcases List.mem_cons.mp h1 with h2 | h2
          · exact absurd h2.symm (by decide)
          · exact hv h2
      have hne : kv.1.data ++ '=' :: kv.2.data ≠ [] := by simp
      rw [hser]
      rw [show parseQuery ((kv.1.data ++ '=' :: kv.2.data) ++ '&' :: serializeQuery (kv2 :: rest2)) =
            parseQuery (kv.1.data ++ '=' :: kv.2.data) ++ parseQuery (serializeQuery (kv2 :: rest2)) by
        simp only [parseQuery]
        rw [splitOnChar_append]
        simp [List.filter_append]]
      rw [parseQuery_of_no_amp _ hnoamp hne, parsePair_of_wf kv.1 kv.2 hk2, hih]
      rfl

/-! ### WHATWG URL model -/

structure URLModel where
  scheme : String
  host : String
  pathname : String
  query : Params
  deriving DecidableEq

/- Query text including the leading '?', empty when no parameters. -/
def searchChars (ps : Params) : List Char :=
  match ps with
  | [] => []
  | _ :: _ => '?' :: serializeQuery ps

def URLModel.searchStr (u : URLModel) : String := ⟨searchChars u.query⟩

def URLModel.href (u : URLModel) : String :=
  u.scheme ++ "://" ++ u.host ++ u.pathname ++ u.searchStr

def URLModel.origin (u : URLModel) : String := u.scheme ++ "://" ++ u.host

/- Characters allowed in a URL scheme. -/
def isSchemeChar (c : Char) : Bool :=
  c.isAlpha || c.isDigit || c = '+' || c = '-' || c = '.'

/- Split "scheme://rest"; none when the input has no hierarchical scheme. -/
def splitScheme (l : List Char) : Option (List Char × List Char) :=
  match l.dropWhile isSchemeChar with
  | ':' :: '/' :: '/' :: r =>
    match l.takeWhile isSchemeChar with
    | [] => none
    | c :: cs => if c.isAlpha then some (c :: cs, r) else none
  | _ => none

/- Characters allowed in a host: everything up to '/' or '?'. -/
def hostPred (c : Char) : Bool := !(c == '/') && !(c == '?')

def queryOf : Option (List Char) → Params
  | some q => parseQuery q
  | none => []

/- Absolute URL: after scheme and host, the path runs to the first '?'. -/
def parseAfterHost (sch host after : List Char) : URLModel :=
  match after with
  | [] => ⟨⟨sch⟩, ⟨host⟩, "/", []⟩
  | a :: rest =>
    if a = '?' then ⟨⟨sch⟩, ⟨host⟩, "/", parseQuery rest⟩
    else ⟨⟨sch⟩, ⟨host⟩,
          ⟨(splitFirst '?' (a :: rest)).1⟩, queryOf (splitFirst '?' (a :: rest)).2⟩

/- Base directory: the base path up to and including its last '/'. -/
def dirOf (l : List Char) : List Char :=
  (l.reverse.dropWhile (fun c => !(c == '/'))).reverse

/- Model of the WHATWG URL constructor (new URL(input, base)) on the
hierarchical fragment described at the top of this file; none models a
thrown TypeError. -/
def parseURL (input : String) (base : Option URLModel) : Option URLModel :=
  match splitScheme input.data with
  | some (sch, r) =>
    match r.takeWhile hostPred with
    | [] => none
    | h :: hs => some (parseAfterHost sch (h :: hs) (r.dropWhile hostPred))
  | none =>
    match base with
    | none => none
    | some b =>
      if (splitFirst '?' input.data).1.isEmpty then
        match (splitFirst '?' input.data).2 with
        | none => some b
        | some q => some ⟨b.scheme, b.host, b.pathname, parseQuery q⟩
      else
        some ⟨b.scheme, b.host,
              ⟨if (splitFirst '?' input.data).1.head? = some '/'
               then (splitFirst '?' input.data).1
               else dirOf b.pathname.data ++ (splitFirst '?' input.data).1⟩,
              queryOf (splitFirst '?' input.data).2⟩

/- The constructor new URL(input, base) where base is itself a string:
the base string is parsed first; if it fails the constructor throws
even when input is absolute. -/
def urlConstruct (input base : String) : Option URLModel :=
  match parseURL base none with
  | none => none
  | some b0 => parseURL input (some b0)

/-! ### URL invariants -/

/- Invariant of every parsed URL: scheme, host and pathname carry no
'?', and the query list is well formed. -/
def URLOK (u : URLModel) : Prop :=
  '?' ∉ u.scheme.data ∧ '?' ∉ u.host.data ∧ '?' ∉ u.pathname.data ∧ WFParams u.query

theorem mem_dropWhileChar (p : Char → Bool) (l : List Char) (x : Char)
    (h : x ∈ l.dropWhile p) : x ∈ l := by
  induction l with
  | nil => simp at h
  | cons a as ih =>
    by_cases hp : p a
    · simp only [List.dropWhile_cons, hp, if_true] at h
      exact List.mem_cons_of_mem a (ih h)
    · simp only [List.dropWhile_cons, hp, if_false] at h
      exact h

theorem mem_dirOf (l : List Char) (x : Char) (h : x ∈ dirOf l) : x ∈ l := by
  simp only [dirOf, List.mem_reverse] at h
  exact List.mem_reverse.mp (mem_dropWhileChar _ _ _ h)

theorem splitScheme_take (l sch r : List Char) (h : splitScheme l = some (sch, r)) :
    sch = l.takeWhile isSchemeChar := by
  simp only [splitScheme] at h
  split at h
  · split at h
    · exact absurd h (by simp)
    · rename_i heq
      split at h
      · injection h with h1
        injection h1 with h2 h3
        rw [← h2, heq]
      · exact absurd h (by simp)
  · exact absurd h (by simp)

theorem splitScheme_no_qm (l sch r : List Char) (h : splitScheme l = some (sch, r)) :
    '?' ∉ sch := by
  rw [splitScheme_take l sch r h]
  intro hmem
  have := List.mem_takeWhile_imp hmem
  exact absurd this (by decide)

theorem splitScheme_drop (l sch r : List Char) (h : splitScheme l = some (sch, r)) :
    l.dropWhile isSchemeChar = ':' :: '/' :: '/' :: r := by
  simp only [splitScheme] at h
  split at h
  · rename_i heq2
    split at h
    · exact absurd h (by simp)
    · split at h
      · injection h with h1
        injection h1 with h2 h3
        rw [heq2, h3]
      · exact absurd h (by simp)
  · exact absurd h (by simp)

theorem parseAfterHost_ok (sch host after : List Char)
    (hsch : '?' ∉ sch) (hhost : '?' ∉ host) :
    URLOK (parseAfterHost sch host after) := by
  cases after with
  | nil =>
    refine ⟨hsch, hhost, ?_, ?_⟩
    · show '?' ∉ ("/" : String).data
      decide
    · intro kv hkv; simp [parseAfterHost] at hkv
  | cons a rest =>
    by_cases h : a = '?'
    · simp only [parseAfterHost, h, if_true]
      refine ⟨hsch, hhost, ?_, wf_parseQuery rest⟩
      show '?' ∉ ("/" : String).data
      decide
    · simp only [parseAfterHost, h, if_false]
      refine ⟨hsch, hhost, splitFirst_fst_not_mem '?' (a :: rest), ?_⟩
      cases hq : (splitFirst '?' (a :: rest)).2 with
      | none => intro kv hkv; simp [queryOf, hq] at hkv
      | some q => simpa [queryOf, hq] using wf_parseQuery q

/- Every URL produced by the parser satisfies the invariant, provided
the base (when used) does. -/
theorem parseURL_ok (s : String) (base : Option URLModel)
    (hbase : ∀ b, base = some b → URLOK b) (u : URLModel)
    (h : parseURL s base = some u) : URLOK u := by
  simp only [parseURL] at h
  split at h
  · rename_i sch r hsch
    split at h
    · exact absurd h (by simp)
    · rename_i hh hs hhost
      injection h with h1
      rw [← h1]
      apply parseAfterHost_ok
      · exact splitScheme_no_qm s.data sch r hsch
      · rw [← hhost]
        intro hmem
        have := List.mem_takeWhile_imp hmem
        exact absurd this (by decide)
  · split at h
    · exact absurd h (by simp)
    · rename_i b
      have hbok : URLOK b := hbase b rfl

      split at h
      · split at h
        · injection h with h1; rw [← h1]; exact hbok
        · rename_i q hq
          injection h with h1
          rw [← h1]
          exact ⟨hbok.1, hbok.2.1, hbok.2.2.1, wf_parseQuery q⟩
      · injection h with h1
        rw [← h1]
        refine ⟨hbok.1, hbok.2.1, ?_, ?_⟩
        · split
          · exact splitFirst_fst_not_mem '?' s.data
          · intro hmem
            rcases List.mem_append.mp hmem with h2 | h2
            · exact hbok.2.2.1 (mem_dirOf b.pathname.data '?' h2)
            · exact splitFirst_fst_not_mem '?' s.data h2
        · cases hq : (splitFirst '?' s.data).2 with
          | none => intro kv hkv; simp [queryOf, hq] at hkv
          | some q => simpa [queryOf, hq] using wf_parseQuery q

/- A value read out of a well-formed URL's query carries no '&'. -/
theorem getParam_wf_value (k v : String) (ps : Params)
    (hwf : WFParams ps) (h : getParam k ps = some v) : '&' ∉ v.data := by
  induction ps with
  | nil => simp [getParam] at h
  | cons kv rest ih =>
    by_cases h1 : kv.1 = k
    · simp only [getParam, h1, if_true, Option.some.injEq] at h
      rw [← h]
      exact (hwf kv (List.mem_cons_self kv rest)).2.2
    · simp only [getParam, h1, if_false] at h
      exact ih (fun kv' h' => hwf kv' (List.mem_cons_of_mem kv h')) h

/-! ### The host environment and tag discovery (getHacstag) -/

/- Read-only host inputs.  importMetaUrl models import.meta.url (none
when import.meta is undefined or its url is absent); hasDocument models
typeof document; scripts holds the src of each element returned by
document.querySelectorAll for module-typed scripts ("" when the element
has no usable src); windowLocation models window.location.href (none
when window or window.location is unavailable). -/
structure Env where
  importMetaUrl : Option String
  hasDocument : Bool
  scripts : List String
  windowLocation : Option String

/- url.searchParams.get of the well-known tag key. -/
def urlHacstag (u : URLModel) : Option String := getParam "hacstag" u.query

/- The entry-point filename pattern the first script loop looks for. -/
def entryNeedle : String := "simon42-dashboard-strategy.js"

/- The loader filename pattern the fallback script loop looks for. -/
def loaderNeedle : String := "simon42-strategies-loader.js"

/- The base used for script srcs: new URL(src, window.location.href);
when window is unavailable or its href unparseable every iteration
throws and is caught, which this models as none. -/
def pageBase (env : Env) : Option URLModel :=
  match env.windowLocation with
  | none => none
  | some w => parseURL w none

/- The tag value a single script contributes: new URL(src, base)
followed by searchParams.get('hacstag'); none models both a thrown URL
constructor and an absent parameter. -/
def scriptTagOf (baseOpt : Option URLModel) (src : String) : Option String :=
  match baseOpt with
  | none => none
  | some b =>
    match parseURL src (some b) with
    | none => none
    | some url => urlHacstag url

/- One for-loop over the script list: take the first script whose src
is nonempty, contains the needle, parses against the page base, and
carries a nonempty tag value; URL failures skip to the next script. -/
def scanScripts (needle : String) (baseOpt : Option URLModel) :
    List String → Option String
  | [] => none
  | src :: rest =>
    if src ≠ "" ∧ jsIncludes src needle = true then
      match scriptTagOf baseOpt src with
      | none => scanScripts needle baseOpt rest
      | some t => if t = "" then scanScripts needle baseOpt rest else some t
    else scanScripts needle baseOpt rest

/- Discovery priority 1: the document's module script tags, entry point
first, loader as fallback. -/
def probeScripts (env : Env) : Option String :=
  if env.hasDocument then
    match scanScripts entryNeedle (pageBase env) env.scripts with
    | some t => some t
    | none => scanScripts loaderNeedle (pageBase env) env.scripts
  else none

/- The tag value a standalone URL string contributes: new URL(s)
followed by searchParams.get('hacstag'). -/
def urlTagOf (s : String) : Option String :=
  match parseURL s none with
  | none => none
  | some url => urlHacstag url

/- Discovery priority 2: the executing module's own URL. -/
def probeImportMeta (env : Env) : Option String :=
  match env.importMetaUrl with
  | none => none
  | some imu =>
    if imu = "" then none
    else
      match urlTagOf imu with
      | none => none
      | some t => if t = "" then none else some t

/- Discovery priority 3: the current page URL. -/
def probePage (env : Env) : Option String :=
  match env.windowLocation with
  | none => none
  | some w =>
    match urlTagOf w with
    | none => none
    | some t => if t = "" then none else some t

/- The body of getHacstag after the memoisation check: the three
probes in source order, first nonempty match wins. -/
def getHacstagFresh (env : Env) : Option String :=
  match probeScripts env with
  | some t => some t
  | none =>
    match probeImportMeta env with
    | some t => some t
    | none => probePage env

/- The module-level mutable cache. -/
structure LoaderState where
  cachedHacstag : Option String
  hacstagDetectionAttempted : Bool
  deriving DecidableEq

/- State at module load: cachedHacstag = null, attempted = false. -/
def initState : LoaderState := ⟨none, false⟩

/- getHacstag: return the cached value when detection was already
attempted, otherwise scan the environment once and record the result
(including a recorded not-found). -/
def getHacstag (st : LoaderState) (env : Env) : Option String × LoaderState :=
  if st.hacstagDetectionAttempted then (st.cachedHacstag, st)
  else
    match getHacstagFresh env with
    | some t => (some t, ⟨some t, true⟩)
    | none => (none, ⟨none, true⟩)

/-! ### Path resolution (resolveModule) -/

/- The regular expression test /^https?:\/\// . -/
def startsWithHttp (p : String) : Bool :=
  jsStartsWith p "http://" || jsStartsWith p "https://"

/- baseUrl || import.meta.url (JavaScript ||: empty string is falsy). -/
def effectiveBase (baseUrl : Option String) (imu : String) : String :=
  match baseUrl with
  | none => imu
  | some b => if b = "" then imu else b

/- The catch-branch fallback of resolveModule: append the tag by plain
string concatenation, prefixing "./" unless the path already starts
with "./". -/
def catchAppend (modulePath tag : String) : String :=
  let separator : String := if hasQm modulePath then "&" else "?"
  let fallback : String := if jsStartsWith modulePath "./" then modulePath else "./" ++ modulePath
  fallback ++ separator ++ "hacstag=" ++ tag

/- The fallback of resolveModule when import.meta.url is unavailable:
same concatenation, but "./" is prefixed only for a bare relative
specifier (no "./", "../", "/" or http(s) scheme prefix). -/
def noMetaAppend (modulePath tag : String) : String :=
  let separator : String := if hasQm modulePath then "&" else "?"
  let normalizedPath : String :=
    if jsStartsWith modulePath "./" || jsStartsWith modulePath "../" ||
       jsStartsWith modulePath "/" || startsWithHttp modulePath
    then modulePath else "./" ++ modulePath
  normalizedPath ++ separator ++ "hacstag=" ++ tag

/- resolveModule with the discovered tag already in hand (the body
after the getHacstag() call). -/
def resolveModuleWith (hacstag : Option String) (env : Env)
    (modulePath : String) (baseUrl : Option String) : String :=
  match hacstag with
  | none => modulePath
  | some tag =>
    if tag = "" then modulePath
    else if jsIncludes modulePath "hacstag=" then modulePath
    else
      match env.importMetaUrl with
      | none => noMetaAppend modulePath tag
      | some imu =>
        if imu = "" then noMetaAppend modulePath tag
        else
          match urlConstruct modulePath (effectiveBase baseUrl imu) with
          | some r0 =>
            URLModel.href { r0 with query := setParam "hacstag" tag r0.query }
          | none => catchAppend modulePath tag

/- resolveModule(modulePath, baseUrl = null). -/
def resolveModule (st : LoaderState) (env : Env)
    (modulePath : String) (baseUrl : Option String) : String × LoaderState :=
  match getHacstag st env with
  | (h, st2) => (resolveModuleWith h env modulePath baseUrl, st2)

/- importModule: resolve, then hand the resolved string to the host's
dynamic-import facility, returning whatever it returns. -/
def importModule {err mod : Type} (hostImport : String → Except err mod)
    (st : LoaderState) (env : Env) (modulePath : String) :
    Except err mod × LoaderState :=
  match resolveModule st env modulePath none with
  | (resolvedPath, st2) => (hostImport resolvedPath, st2)

/-! ### Observation helpers for the theorems -/

/- The query parameters of a result string: everything after its first
'?', parsed as a query. -/
def resultParams (s : String) : Params := queryOf (splitFirst '?' s.data).2

/- Number of positions at which pat occurs in l. -/
def countOccur (pat l : List Char) : Nat :=
  ((List.range (l.length + 1)).filter (fun i => listIsPre pat (l.drop i))).length

theorem strDataAppend (a b : String) : (a ++ b).data = a.data ++ b.data := rfl

theorem hasQm_iff (s : String) : hasQm s = true ↔ '?' ∈ s.data := by
  simp [hasQm]

theorem listIsPre_head_ne (a b : Char) (as bs : List Char) (h : ¬a = b) :
    listIsPre (a :: as) (b :: bs) = false := by
  simp [listIsPre, h]

/- Prefixing "./" cannot create an occurrence of "hacstag". -/
theorem hacstag_sub_dotslash (p : String)
    (h : listHasSub "hacstag".data p.data = false) :
    listHasSub "hacstag".data ("./" ++ p).data = false := by
  rw [strDataAppend]
  show listHasSub "hacstag".data ('.' :: '/' :: p.data) = false
  by_contra hcon
  rw [Bool.not_eq_false] at hcon
  rcases listHasSub_cons _ _ _ hcon with h1 | h1
  · rw [show "hacstag".data = 'h' :: "acstag".data from rfl,
      listIsPre_head_ne 'h' '.' _ _ (by decide)] at h1
    exact absurd h1 (by simp)
  · rcases listHasSub_cons _ _ _ h1 with h2 | h2
    · rw [show "hacstag".data = 'h' :: "acstag".data from rfl,
        listIsPre_head_ne 'h' '/' _ _ (by decide)] at h2
      exact absurd h2 (by simp)
    · rw [h] at h2
      exact absurd h2 (by simp)

theorem hasQm_dotslash (p : String) : hasQm ("./" ++ p) = hasQm p := by
  simp only [hasQm, strDataAppend]
  rw [decide_eq_decide]
  constructor
  · intro h
    rcases List.mem_append.mp h with h1 | h1
    · exact absurd h1 (by decide)
    · exact h1
  · intro h
    exact List.mem_append.mpr (Or.inr h)

theorem sub_chain (a b d : List Char) (h1 : ∃ s t, s ++ a ++ t = b)
    (h2 : ∃ s t, s ++ b ++ t = d) : ∃ s t, s ++ a ++ t = d := by
  obtain ⟨s1, t1, rfl⟩ := h1
  obtain ⟨s2, t2, rfl⟩ := h2
  exact ⟨s2 ++ s1, t1 ++ t2, by simp [List.append_assoc]⟩

theorem key_ne_of_no_sub (d : List Char)
    (hd : listHasSub "hacstag".data d = false)
    (k : String) (hk : ∃ s t, s ++ k.data ++ t = d) : k ≠ "hacstag" := by
  rintro rfl
  rw [(listHasSub_iff "hacstag".data d).mpr hk] at hd
  exact absurd hd (by simp)

theorem splitFirst_mem_some (c : Char) (l : List Char) (h : c ∈ l) :
    ∃ r, (splitFirst c l).2 = some r := by
  cases hs : (splitFirst c l).2 with
  | some r => exact ⟨r, rfl⟩
  | none =>
    have := splitFirst_recon c l
    rw [hs] at this
    simp only [List.append_nil] at this
    rw [this] at h
    exact absurd h (splitFirst_fst_not_mem c l)

theorem parseQuery_append (a b : List Char) :
    parseQuery (a ++ '&' :: b) = parseQuery a ++ parseQuery b := by
  simp only [parseQuery]
  rw [splitOnChar_append]
  simp [List.filter_append]

theorem parseQuery_tagPair (tagv : String) (hamp : '&' ∉ tagv.data) :
    parseQuery ("hacstag=".data ++ tagv.data) = [("hacstag", tagv)] := by
  have hnoamp : '&' ∉ "hacstag=".data ++ tagv.data := by
    intro hmem
    rcases List.mem_append.mp hmem with h1 | h1
    · exact absurd h1 (by decide)
    · exact hamp h1
  have hne : "hacstag=".data ++ tagv.data ≠ [] := by
    intro h
    have := congrArg List.length h
    simp at this
  rw [parseQuery_of_no_amp _ hnoamp hne]
  rw [show "hacstag=".data ++ tagv.data = "hacstag".data ++ '=' :: tagv.data from rfl]
  rw [parsePair_of_wf "hacstag" tagv (by decide)]

/- Parameters of a string of the shape pathpart ++ "?" ++ querypart. -/
theorem resultParams_shape (a s : List Char) (ha : '?' ∉ a) :
    resultParams ⟨a ++ '?' :: s⟩ = parseQuery s := by
  simp only [resultParams]
  rw [splitFirst_append '?' a s ha]
  rfl

/- The two string-concatenation fallbacks: the appended pair is the
single hacstag parameter of the result, provided the path carries no
occurrence of "hacstag" and the tag value no '&'. -/
theorem appendResultParams (q tagv : String)
    (hq : listHasSub "hacstag".data q.data = false) (hamp : '&' ∉ tagv.data) :
    countKey "hacstag"
        (resultParams (q ++ (if hasQm q then "&" else "?") ++ "hacstag=" ++ tagv)) = 1 ∧
      getParam "hacstag"
        (resultParams (q ++ (if hasQm q then "&" else "?") ++ "hacstag=" ++ tagv)) = some tagv := by
  by_cases hqq : hasQm q = true
  · obtain ⟨q2, hq2⟩ := splitFirst_mem_some '?' q.data ((hasQm_iff q).mp hqq)
    have hq1 : '?' ∉ (splitFirst '?' q.data).1 := splitFirst_fst_not_mem '?' q.data
    have hrecon := splitFirst_recon '?' q.data
    rw [hq2] at hrecon
    have hdata : (q ++ (if hasQm q then "&" else "?") ++ "hacstag=" ++ tagv).data =
        (splitFirst '?' q.data).1 ++ '?' :: (q2 ++ '&' :: ("hacstag=".data ++ tagv.data)) := by
      rw [strDataAppend, strDataAppend, strDataAppend, hqq, if_pos rfl]
      rw [show ("&" : String).data = ['&'] from rfl]
      conv_lhs => rw [hrecon]
      simp [List.append_assoc]
    have hrecon2 : q.data = (splitFirst '?' q.data).1 ++ '?' :: q2 := hrecon
    have hsub_q2 : ∃ s t, s ++ q2 ++ t = q.data := by
      refine ⟨(splitFirst '?' q.data).1 ++ ['?'], [], ?_⟩
      have hx : ((splitFirst '?' q.data).1 ++ ['?']) ++ q2 ++ [] =
          (splitFirst '?' q.data).1 ++ '?' :: q2 := by simp
      rw [hx, ← hrecon2]
    have hkeys : ∀ kv ∈ parseQuery q2, kv.1 ≠ "hacstag" := by
      intro kv hkv
      exact key_ne_of_no_sub q.data hq kv.1
        (sub_chain kv.1.data q2 q.data (parseQuery_key_sub q2 kv hkv) hsub_q2)
    have hres : resultParams (q ++ (if hasQm q then "&" else "?") ++ "hacstag=" ++ tagv) =
        parseQuery q2 ++ [("hacstag", tagv)] := by
      have := resultParams_shape (splitFirst '?' q.data).1
        (q2 ++ '&' :: ("hacstag=".data ++ tagv.data)) hq1
      rw [show String.mk ((splitFirst '?' q.data).1 ++ '?' :: (q2 ++ '&' :: ("hacstag=".data ++ tagv.data))) =
          (q ++ (if hasQm q then "&" else "?") ++ "hacstag=" ++ tagv) from by
        apply congrArg String.mk hdata.symm] at this
      rw [this, parseQuery_append, parseQuery_tagPair tagv hamp]
    rw [hres]
    constructor
    · rw [countKey_append, countKey_of_not_mem "hacstag" (parseQuery q2) hkeys]
      simp [countKey, List.filter]
    · rw [getParam_append_of_not_mem "hacstag" (parseQuery q2) _ hkeys]
      simp [getParam]
  · have hnq : '?' ∉ q.data := fun hmem => hqq ((hasQm_iff q).mpr hmem)
    have hdata : (q ++ (if hasQm q then "&" else "?") ++ "hacstag=" ++ tagv).data =
        q.data ++ '?' :: ("hacstag=".data ++ tagv.data) := by
      rw [strDataAppend, strDataAppend, strDataAppend]
      rw [if_neg hqq]
      rw [show ("?" : String).data = ['?'] from rfl]
      simp [List.append_assoc]
    have hres : resultParams (q ++ (if hasQm q then "&" else "?") ++ "hacstag=" ++ tagv) =
        [("hacstag", tagv)] := by
      have := resultParams_shape q.data ("hacstag=".data ++ tagv.data) hnq
      rw [show String.mk (q.data ++ '?' :: ("hacstag=".data ++ tagv.data)) =
          (q ++ (if hasQm q then "&" else "?") ++ "hacstag=" ++ tagv) from by
        apply congrArg String.mk hdata.symm] at this
      rw [this, parseQuery_tagPair tagv hamp]
    rw [hres]
    constructor
    · simp [countKey, List.filter]
    · simp [getParam]

/-! ### Properties of tag discovery -/

theorem urlTagOf_props (s t : String) (h : urlTagOf s = some t) : '&' ∉ t.data := by
  simp only [urlTagOf] at h
  cases hu : parseURL s none with
  | none => rw [hu] at h; exact absurd h (by simp)
  | some url =>
    rw [hu] at h
    have hok : URLOK url := parseURL_ok s none (by rintro b' ⟨⟩) url hu
    exact getParam_wf_value "hacstag" t url.query hok.2.2.2 h

theorem scriptTagOf_props (baseOpt : Option URLModel)
    (hbase : ∀ b, baseOpt = some b → URLOK b) (src t : String)
    (h : scriptTagOf baseOpt src = some t) : '&' ∉ t.data := by
  simp only [scriptTagOf] at h
  cases hb : baseOpt with
  | none => rw [hb] at h; exact absurd h (by simp)
  | some b =>
    rw [hb] at h
    have h2 : (match parseURL src (some b) with
        | none => none
        | some url => urlHacstag url) = some t := h
    cases hu : parseURL src (some b) with
    | none => rw [hu] at h2; exact absurd h2 (by simp)
    | some url =>
      rw [hu] at h2
      have h3 : urlHacstag url = some t := h2
      have hok : URLOK url :=
        parseURL_ok src (some b) (by rintro b' ⟨rfl⟩; exact hbase b hb) url hu
      exact getParam_wf_value "hacstag" t url.query hok.2.2.2 h3

theorem scanScripts_base_none (needle : String) (l : List String) :
    scanScripts needle none l = none := by
  induction l with
  | nil => rfl
  | cons src rest ih =>
    by_cases h : src ≠ "" ∧ jsIncludes src needle = true
    · simp [scanScripts, scriptTagOf, h, ih]
    · simp [scanScripts, h, ih]

theorem scanScripts_props (needle : String) (baseOpt : Option URLModel)
    (hbase : ∀ b, baseOpt = some b → URLOK b) (l : List String) (t : String)
    (h : scanScripts needle baseOpt l = some t) : t ≠ "" ∧ '&' ∉ t.data := by
  induction l with
  | nil => simp [scanScripts] at h
  | cons src rest ih =>
    by_cases h1 : src ≠ "" ∧ jsIncludes src needle = true
    · rw [scanScripts, if_pos h1] at h
      cases hst : scriptTagOf baseOpt src with
      | none => rw [hst] at h; exact ih h
      | some t0 =>
        rw [hst] at h
        have h2 : (if t0 = "" then scanScripts needle baseOpt rest else some t0) = some t := h
        by_cases h0 : t0 = ""
        · rw [if_pos h0] at h2; exact ih h2
        · rw [if_neg h0] at h2
          injection h2 with h3
          subst h3
          exact ⟨h0, scriptTagOf_props baseOpt hbase src t0 hst⟩
    · rw [scanScripts, if_neg h1] at h
      exact ih h

theorem pageBase_ok (env : Env) (b : URLModel) (h : pageBase env = some b) : URLOK b := by
  simp only [pageBase] at h
  cases hw : env.windowLocation with
  | none => rw [hw] at h; exact absurd h (by simp)
  | some w =>
    rw [hw] at h
    exact parseURL_ok w none (by rintro b' ⟨⟩) b h

theorem probeScripts_props (env : Env) (t : String)
    (h : probeScripts env = some t) : t ≠ "" ∧ '&' ∉ t.data := by
  simp only [probeScripts] at h
  by_cases hd : env.hasDocument
  · rw [if_pos hd] at h
    cases he : scanScripts entryNeedle (pageBase env) env.scripts with
    | some t0 =>
      rw [he] at h
      injection h with h1
      subst h1
      exact scanScripts_props entryNeedle (pageBase env) (fun b hb => pageBase_ok env b hb)
        env.scripts t0 he
    | none =>
      rw [he] at h
      exact scanScripts_props loaderNeedle (pageBase env) (fun b hb => pageBase_ok env b hb)
        env.scripts t h
  · rw [if_neg hd] at h
    exact absurd h (by simp)

theorem probeImportMeta_props (env : Env) (t : String)
    (h : probeImportMeta env = some t) : t ≠ "" ∧ '&' ∉ t.data := by
  simp only [probeImportMeta] at h
  cases hi : env.importMetaUrl with
  | none => rw [hi] at h; exact absurd h (by simp)
  | some imu =>
    rw [hi] at h
    have h1 : (if imu = "" then none
        else match urlTagOf imu with
             | none => none
             | some t => if t = "" then none else some t) = some t := h
    by_cases h0 : imu = ""
    · rw [if_pos h0] at h1; exact absurd h1 (by simp)
    · rw [if_neg h0] at h1
      cases ht : urlTagOf imu with
      | none => rw [ht] at h1; exact absurd h1 (by simp)
      | some t0 =>
        rw [ht] at h1
        have h2 : (if t0 = "" then none else some t0) = some t := h1
        by_cases h3 : t0 = ""
        · rw [if_pos h3] at h2; exact absurd h2 (by simp)
        · rw [if_neg h3] at h2
          injection h2 with h4
          subst h4
          exact ⟨h3, urlTagOf_props imu t0 ht⟩

theorem probePage_props (env : Env) (t : String)
    (h : probePage env = some t) : t ≠ "" ∧ '&' ∉ t.data := by
  simp only [probePage] at h
  cases hw : env.windowLocation with
  | none => rw [hw] at h; exact absurd h (by simp)
  | some w =>
    rw [hw] at h
    have h1 : (match urlTagOf w with
        | none => none
        | some t => if t = "" then none else some t) = some t := h
    cases ht : urlTagOf w with
    | none => rw [ht] at h1; exact absurd h1 (by simp)
    | some t0 =>
      rw [ht] at h1
      have h2 : (if t0 = "" then none else some t0) = some t := h1
      by_cases h3 : t0 = ""
      · rw [if_pos h3] at h2; exact absurd h2 (by simp)
      · rw [if_neg h3] at h2
        injection h2 with h4
        subst h4
        exact ⟨h3, urlTagOf_props w t0 ht⟩

/- Every value that discovery can return is a nonempty tag free of '&'
(it was read out of a parsed query string). -/
theorem getHacstagFresh_props (env : Env) (t : String)
    (h : getHacstagFresh env = some t) : t ≠ "" ∧ '&' ∉ t.data := by
  simp only [getHacstagFresh] at h
  cases h1 : probeScripts env with
  | some t0 =>
    rw [h1] at h
    injection h with h2
    subst h2
    exact probeScripts_props env t0 h1
  | none =>
    rw [h1] at h
    cases h2 : probeImportMeta env with
    | some t0 =>
      rw [h2] at h
      injection h with h3
      subst h3
      exact probeImportMeta_props env t0 h2
    | none =>
      rw [h2] at h
      exact probePage_props env t h

/-! ### Properties of resolved URLs -/

theorem wf_setParam (k v : String) (ps : Params) (hps : WFParams ps)
    (hkv : WFPair (k, v)) : WFParams (setParam k v ps) := by
  intro kv hkv2
  rcases mem_setParam k v ps kv hkv2 with rfl | hmem
  · exact hkv
  · exact hps kv hmem

/- The href of a well-formed URL with a nonempty query parses back to
exactly that query: pathname and earlier parts carry no '?', so the
query begins at the first '?'. -/
theorem resultParams_href (u : URLModel) (hok : URLOK u) (hne : u.query ≠ []) :
    resultParams u.href = u.query := by
  obtain ⟨hsch, hhost, hpath, hwf⟩ := hok
  have hdata : u.href.data =
      (u.scheme.data ++ ':' :: '/' :: '/' :: (u.host.data ++ u.pathname.data)) ++
        '?' :: serializeQuery u.query := by
    show (u.scheme ++ "://" ++ u.host ++ u.pathname ++ u.searchStr).data = _
    rw [strDataAppend, strDataAppend, strDataAppend, strDataAppend]
    rw [show ("://" : String).data = [':', '/', '/'] from rfl]
    have hsearch : (URLModel.searchStr u).data = '?' :: serializeQuery u.query := by
      cases hq : u.query with
      | nil => exact absurd hq hne
      | cons kv rest =>
        show searchChars u.query = _
        rw [hq]
        rfl
    rw [hsearch]
    simp [List.append_assoc]
  have hA : '?' ∉ u.scheme.data ++ ':' :: '/' :: '/' :: (u.host.data ++ u.pathname.data) := by
    intro hmem
    rcases List.mem_append.mp hmem with h1 | h1
    · exact hsch h1
    · rcases List.mem_cons.mp h1 with h2 | h2
      · exact absurd h2 (by decide)
      · rcases List.mem_cons.mp h2 with h3 | h3
        · exact absurd h3 (by decide)
        · rcases List.mem_cons.mp h3 with h4 | h4
          · exact absurd h4 (by decide)
          · rcases List.mem_append.mp h4 with h5 | h5
            · exact hhost h5
            · exact hpath h5
  have heta : u.href = String.mk
      ((u.scheme.data ++ ':' :: '/' :: '/' :: (u.host.data ++ u.pathname.data)) ++
        '?' :: serializeQuery u.query) := by
    rw [← hdata]
  rw [heta, resultParams_shape _ _ hA, parseQuery_serializeQuery u.query hwf]

/- An absolute input (a URL with its own scheme) resolves the same
against any base: the base is ignored. -/
theorem parseURL_abs (p : String) (u : URLModel) (h : parseURL p none = some u)
    (base : Option URLModel) : parseURL p base = some u := by
  simp only [parseURL] at h ⊢
  cases hs : splitScheme p.data with
  | none => rw [hs] at h; exact absurd h (by simp)
  | some schr =>
    obtain ⟨sch, r⟩ := schr
    rw [hs] at h
    exact h

/- Every query name of an absolutely parsed URL occurs as a substring
of the input text. -/
theorem parseURL_abs_key_sub (p : String) (u : URLModel)
    (h : parseURL p none = some u) (kv : String × String) (hkv : kv ∈ u.query) :
    ∃ s t, s ++ kv.1.data ++ t = p.data := by
  simp only [parseURL] at h
  cases hs : splitScheme p.data with
  | none => rw [hs] at h; exact absurd h (by simp)
  | some schr =>
    rw [hs] at h
    obtain ⟨sch, r⟩ := schr
    have h2 : (match r.takeWhile hostPred with
        | [] => none
        | h :: hs => some (parseAfterHost sch (h :: hs) (r.dropWhile hostPred))) = some u := h
    cases hh : r.takeWhile hostPred with
    | nil => rw [hh] at h2; exact absurd h2 (by simp)
    | cons hc hcs =>
      rw [hh] at h2
      injection h2 with h3
      have hr : ∃ s, s ++ r = p.data := by
        have hdrop := splitScheme_drop p.data sch r hs
        refine ⟨p.data.takeWhile isSchemeChar ++ [':', '/', '/'], ?_⟩
        have := List.takeWhile_append_dropWhile isSchemeChar p.data
        rw [hdrop] at this
        simpa using this
      have hafter : ∃ s, s ++ r.dropWhile hostPred = r :=
        ⟨r.takeWhile hostPred, List.takeWhile_append_dropWhile hostPred r⟩
      have hq : ∃ s t, s ++ kv.1.data ++ t = r.dropWhile hostPred := by
        rw [← h3] at hkv
        cases hafter2 : r.dropWhile hostPred with
        | nil =>
          rw [hafter2] at hkv
          simp [parseAfterHost] at hkv
        | cons a rest =>
          rw [hafter2] at hkv
          by_cases ha : a = '?'
          · simp only [parseAfterHost, ha, if_true] at hkv
            obtain ⟨s1, t1, hst⟩ := parseQuery_key_sub rest kv hkv
            exact ⟨'?' :: s1, t1, by rw [ha]; simp [hst]⟩
          · simp only [parseAfterHost, ha, if_false] at hkv
            cases hsp : (splitFirst '?' (a :: rest)).2 with
            | none => rw [hsp] at hkv; simp [queryOf] at hkv
            | some q =>
              rw [hsp] at hkv
              obtain ⟨s1, t1, hst⟩ := parseQuery_key_sub q kv hkv
              have hrecon := splitFirst_recon '?' (a :: rest)
              rw [hsp] at hrecon
              refine ⟨(splitFirst '?' (a :: rest)).1 ++ '?' :: s1, t1, ?_⟩
              have hrecon2 : (a :: rest : List Char) =
                  (splitFirst '?' (a :: rest)).1 ++ '?' :: q := hrecon
              have hgoal : ((splitFirst '?' (a :: rest)).1 ++ '?' :: s1) ++ kv.1.data ++ t1 =
                  (splitFirst '?' (a :: rest)).1 ++ '?' :: q := by
                rw [← hst]
                simp [List.append_assoc]
              exact hgoal.trans hrecon2.symm
      obtain ⟨s1, hs1⟩ := hafter
      obtain ⟨s2, hs2⟩ := hr
      refine sub_chain kv.1.data r p.data ?_ ⟨s2, [], by simp [hs2]⟩
      exact sub_chain kv.1.data (r.dropWhile hostPred) r hq ⟨s1, [], by simp [hs1]⟩

/-! ### Generic unfolding helpers -/

theorem resolveModule_fst (st : LoaderState) (env : Env) (p : String) (b : Option String) :
    (resolveModule st env p b).1 = resolveModuleWith (getHacstag st env).1 env p b := by
  rcases hg : getHacstag st env with ⟨h1, st2⟩
  simp [resolveModule, hg]

theorem getHacstag_init_fst (env : Env) :
    (getHacstag initState env).1 = getHacstagFresh env := by
  simp only [getHacstag, initState]
  cases getHacstagFresh env <;> simp

/-! ### Claim theorems -/

/-- C1: for every discovered tag (indeed for any cache state) and every path
string already containing the tag parameter key "hacstag=" as a literal
substring, resolveModule returns the path unchanged: re-resolving an
already-tagged path never re-bases it or duplicates the parameter. -/
theorem c1_idempotence_guard (st : LoaderState) (env : Env) (p : String)
    (b : Option String) (h : jsIncludes p "hacstag=" = true) :
    (resolveModule st env p b).1 = p := by
  rw [resolveModule_fst]
  cases hg : (getHacstag st env).1 with
  | none => rfl
  | some tag =>
    by_cases h0 : tag = ""
    · simp [resolveModuleWith, h0]
    · simp [resolveModuleWith, h0, h]

/-- Witness for C1 at a concrete tagged environment and an already-tagged path. -/
theorem c1_idempotence_guard_witness :
    jsIncludes "./a.js?hacstag=5" "hacstag=" = true ∧
    (resolveModule initState ⟨some "https://h/dist/m.js?hacstag=7", false, [], none⟩
      "./a.js?hacstag=5" none).1 = "./a.js?hacstag=5" :=
  ⟨by decide, c1_idempotence_guard initState
    ⟨some "https://h/dist/m.js?hacstag=7", false, [], none⟩ "./a.js?hacstag=5" none (by decide)⟩

/-- C5: tag discovery is memoized after its first call, including a memoized
not-found result: a second getHacstag call returns the identical value and
leaves the state untouched, whatever the environment looks like by then. -/
theorem c5_memoized_discovery (st : LoaderState) (env1 env2 : Env) :
    getHacstag ((getHacstag st env1).2) env2 = getHacstag st env1 := by
  by_cases hA : st.hacstagDetectionAttempted
  · simp [getHacstag, hA]
  · simp only [getHacstag, hA, if_false]
    cases getHacstagFresh env1 <;> simp [getHacstag]

/-- C7: when no tag is discoverable from any source, resolveModule returns
every path unchanged. -/
theorem c7_no_tag_passthrough (env : Env) (p : String) (b : Option String)
    (h : getHacstagFresh env = none) : (resolveModule initState env p b).1 = p := by
  rw [resolveModule_fst, getHacstag_init_fst, h]
  rfl

/-- Witness for C7 at a concrete empty environment. -/
theorem c7_no_tag_passthrough_witness :
    getHacstagFresh ⟨none, false, [], none⟩ = none ∧
    (resolveModule initState ⟨none, false, [], none⟩ "./a.js" none).1 = "./a.js" :=
  ⟨rfl, c7_no_tag_passthrough ⟨none, false, [], none⟩ "./a.js" none rfl⟩

/-- C9: importModule is the host's dynamic import applied to resolveModule's
result, with no retry and no wrapping; a rejection of the host import is
returned to the caller unmodified. -/
theorem c9_import_passthrough {err mod : Type} (hostImport : String → Except err mod)
    (st : LoaderState) (env : Env) (p : String) :
    (importModule hostImport st env p).1 = hostImport ((resolveModule st env p none).1) ∧
    ∀ e : err, hostImport ((resolveModule st env p none).1) = Except.error e →
      (importModule hostImport st env p).1 = Except.error e := by
  have h1 : (importModule hostImport st env p).1 =
      hostImport ((resolveModule st env p none).1) := by
    rcases hr : resolveModule st env p none with ⟨rp, st2⟩
    simp [importModule, hr]
  exact ⟨h1, fun e he => h1.trans he⟩

/-- Witness for C9: a concrete failing host import is propagated unmodified. -/
theorem c9_import_passthrough_witness :
    (importModule (fun _ => (Except.error 5 : Except Nat Nat)) initState
      ⟨none, false, [], none⟩ "x").1 = Except.error 5 :=
  (c9_import_passthrough (fun _ => (Except.error 5 : Except Nat Nat)) initState
    ⟨none, false, [], none⟩ "x").2 5 rfl

/- A concrete environment in which the module's own URL and the entry
point script tag carry different tags. -/
def envC2 : Env :=
  ⟨some "https://h/m.js?hacstag=imtag", true,
   ["https://h/simon42-dashboard-strategy.js?hacstag=sctag"], some "https://h/"⟩

/-- Counterexample to C2 as stated: the executing module's own URL carries
tag "imtag" and would win under the claimed probe order, but discovery
returns "sctag" from the entry-point script tag, because the shipped
loader scans the document's script tags before import.meta.url. -/
theorem c2_counterexample :
    probeImportMeta envC2 = some "imtag" ∧
    (getHacstag initState envC2).1 = some "sctag" ∧
    ("sctag" : String) ≠ "imtag" :=
  ⟨rfl, rfl, by decide⟩

/-- C2 (amended): discovery probes, in order, (1) the document's module
script tags with the entry-point filename pattern preferred over the loader
filename pattern, (2) the executing module's own resolved URL, (3) the
current page URL; the first match wins. -/
theorem c2_amended_discovery_order (env : Env) :
    (getHacstag initState env).1 =
      ((probeScripts env).orElse fun _ =>
        (probeImportMeta env).orElse fun _ => probePage env) ∧
    (∀ t : String, env.hasDocument = true →
      scanScripts entryNeedle (pageBase env) env.scripts = some t →
      probeScripts env = some t) ∧
    (env.hasDocument = true →
      scanScripts entryNeedle (pageBase env) env.scripts = none →
      probeScripts env = scanScripts loaderNeedle (pageBase env) env.scripts) := by
  refine ⟨?_, ?_, ?_⟩
  · rw [getHacstag_init_fst]
    simp only [getHacstagFresh]
    cases probeScripts env with
    | some t => simp [Option.orElse]
    | none =>
      cases probeImportMeta env with
      | some t => simp [Option.orElse]
      | none => simp [Option.orElse]
  · intro t hd hscan
    simp [probeScripts, hd, hscan]
  · intro hd hscan
    simp [probeScripts, hd, hscan]

/-- Witness for C2 (amended) at the same concrete environment: the probe
chain equation holds and the entry-point script's tag wins. -/
theorem c2_amended_discovery_order_witness :
    (getHacstag initState envC2).1 =
      ((probeScripts envC2).orElse fun _ =>
        (probeImportMeta envC2).orElse fun _ => probePage envC2) ∧
    probeScripts envC2 = some "sctag" :=
  ⟨(c2_amended_discovery_order envC2).1,
   (c2_amended_discovery_order envC2).2.1 "sctag" rfl rfl⟩

/-- C8: tag discovery never raises: a URL-parsing failure inside each single
discovery strategy is swallowed (that strategy reports Absent and discovery
proceeds), and failure of all strategies makes getHacstag return null. -/
theorem c8_failures_swallowed (u w : String) (d : Bool) (scripts : List String)
    (hu : parseURL u none = none) (hw : parseURL w none = none) :
    probeScripts ⟨some u, d, scripts, some w⟩ = none ∧
    probeImportMeta ⟨some u, d, scripts, some w⟩ = none ∧
    probePage ⟨some u, d, scripts, some w⟩ = none ∧
    (getHacstag initState ⟨some u, d, scripts, some w⟩).1 = none := by
  have hps : probeScripts ⟨some u, d, scripts, some w⟩ = none := by
    simp only [probeScripts, pageBase, hw]
    cases d <;> simp [scanScripts_base_none]
  have hpm : probeImportMeta ⟨some u, d, scripts, some w⟩ = none := by
    simp only [probeImportMeta, urlTagOf, hu]
    by_cases h0 : u = "" <;> simp [h0]
  have hpp : probePage ⟨some u, d, scripts, some w⟩ = none := by
    simp [probePage, urlTagOf, hw]
  refine ⟨hps, hpm, hpp, ?_⟩
  rw [getHacstag_init_fst]
  simp [getHacstagFresh, hps, hpm, hpp]

/-- Witness for C8: malformed module URL and page URL, plus a script tag
that cannot be resolved without a page base, yield null rather than an
error. -/
theorem c8_failures_swallowed_witness :
    (getHacstag initState
      ⟨some "nourl", true, ["https://h/simon42-dashboard-strategy.js?hacstag=5"],
       some "not a url"⟩).1 = none :=
  (c8_failures_swallowed "nourl" "not a url" true
    ["https://h/simon42-dashboard-strategy.js?hacstag=5"] rfl rfl).2.2.2

theorem scanScripts_empty_tags (needle : String) (baseOpt : Option URLModel)
    (l : List String) (h : ∀ src ∈ l, scriptTagOf baseOpt src = some "") :
    scanScripts needle baseOpt l = none := by
  induction l with
  | nil => rfl
  | cons src rest ih =>
    have hrest := ih (fun src2 h2 => h src2 (List.mem_cons_of_mem src h2))
    by_cases h1 : src ≠ "" ∧ jsIncludes src needle = true
    · rw [scanScripts, if_pos h1, h src (List.mem_cons_self src rest)]
      simpa using hrest
    · rw [scanScripts, if_neg h1]
      exact hrest

/-- C10: a tag parameter carried with an empty-string value is treated as
absent: when every discovery source maps the tag key to the empty string,
getHacstag yields null and resolveModule returns every path unchanged;
moreover after a first call from the initial state the cached tag is never
the empty string. -/
theorem c10_empty_tag_absent (env : Env) (p : String) (b : Option String)
    (h1 : ∀ u, env.importMetaUrl = some u → urlTagOf u = some "")
    (h2 : ∀ src ∈ env.scripts, scriptTagOf (pageBase env) src = some "")
    (h3 : ∀ w, env.windowLocation = some w → urlTagOf w = some "") :
    getHacstagFresh env = none ∧
    (resolveModule initState env p b).1 = p ∧
    ∀ env2 : Env, (getHacstag initState env2).2.cachedHacstag ≠ some "" := by
  have hps : probeScripts env = none := by
    simp only [probeScripts]
    by_cases hd : env.hasDocument
    · rw [if_pos hd, scanScripts_empty_tags entryNeedle (pageBase env) env.scripts h2,
        scanScripts_empty_tags loaderNeedle (pageBase env) env.scripts h2]
    · rw [if_neg hd]
  have hpm : probeImportMeta env = none := by
    simp only [probeImportMeta]
    cases hi : env.importMetaUrl with
    | none => rfl
    | some u =>
      show (if u = "" then none
        else match urlTagOf u with
             | none => none
             | some t => if t = "" then none else some t) = (none : Option String)
      by_cases h0 : u = ""
      · rw [if_pos h0]
      · rw [if_neg h0, h1 u hi]
        simp
  have hpp : probePage env = none := by
    simp only [probePage]
    cases hw : env.windowLocation with
    | none => rfl
    | some w =>
      show (match urlTagOf w with
        | none => none
        | some t => if t = "" then none else some t) = (none : Option String)
      rw [h3 w hw]
      simp
  have hfresh : getHacstagFresh env = none := by
    simp [getHacstagFresh, hps, hpm, hpp]
  refine ⟨hfresh, ?_, ?_⟩
  · rw [resolveModule_fst, getHacstag_init_fst, hfresh]
    rfl
  · intro env2 hcon
    have hstate : (getHacstag initState env2).2.cachedHacstag = getHacstagFresh env2 := by
      simp only [getHacstag, initState]
      cases getHacstagFresh env2 <;> simp
    rw [hstate] at hcon
    exact absurd rfl (getHacstagFresh_props env2 "" hcon).1

/- A concrete environment in which every source carries hacstag with an
empty value. -/
def envC10 : Env :=
  ⟨some "https://h/m.js?hacstag=", true,
   ["https://h/simon42-dashboard-strategy.js?hacstag="], some "https://h/lovelace?hacstag="⟩

/-- Witness for C10 at a concrete environment whose every source carries
"hacstag=" with an empty value. -/
theorem c10_empty_tag_absent_witness :
    getHacstagFresh envC10 = none ∧
    (resolveModule initState envC10 "./a.js" none).1 = "./a.js" := by
  have h := c10_empty_tag_absent envC10 "./a.js" none
    (by intro u hu; cases hu; rfl)
    (by
      intro src hsrc
      rw [show src = "https://h/simon42-dashboard-strategy.js?hacstag=" from by
        simpa [envC10] using hsrc]
      rfl)
    (by intro w hw; cases hw; rfl)
  exact ⟨h.1, h.2.1⟩

/- A concrete environment with a malformed module URL (so URL
construction fails) and a tag discoverable from the page URL. -/
def envC3 : Env := ⟨some "nourl", false, [], some "https://h/lovelace?hacstag=1"⟩

/-- Counterexample to C3 as stated: with tag "1" discovered and absolute URL
construction failing, the input "/abs.js" is not a bare relative specifier
(it starts with '/'), so the claim promises "/abs.js?hacstag=1"; the code's
catch fallback nevertheless prefixes "./" and returns ".//abs.js?hacstag=1". -/
theorem c3_counterexample :
    (getHacstag initState envC3).1 = some "1" ∧
    urlConstruct "/abs.js" "nourl" = none ∧
    jsStartsWith "/abs.js" "/" = true ∧
    (resolveModule initState envC3 "/abs.js" none).1 = ".//abs.js?hacstag=1" ∧
    (".//abs.js?hacstag=1" : String) ≠ "/abs.js?hacstag=1" :=
  ⟨rfl, rfl, by decide, rfl, by decide⟩

/-- C3 (amended): when import.meta.url is present and absolute URL
construction fails, resolveModule falls back to string concatenation,
appending "?hacstag=tag" when the path contains no '?' and "&hacstag=tag"
otherwise, and it prefixes "./" whenever the path does not already start
with "./" (not only for bare relative specifiers); input "a.js" with tag
"1" still yields "./a.js?hacstag=1". -/
theorem c3_amended_catch_fallback (env : Env) (p tagv imu : String) (b : Option String)
    (hd : getHacstagFresh env = some tagv)
    (hg : jsIncludes p "hacstag=" = false)
    (him : env.importMetaUrl = some imu) (hne : imu ≠ "")
    (hfail : urlConstruct p (effectiveBase b imu) = none) :
    (resolveModule initState env p b).1 =
      (if jsStartsWith p "./" then p else "./" ++ p) ++
        (if hasQm p then "&" else "?") ++ "hacstag=" ++ tagv := by
  have htag : tagv ≠ "" := (getHacstagFresh_props env tagv hd).1
  rw [resolveModule_fst, getHacstag_init_fst, hd]
  show resolveModuleWith (some tagv) env p b = _
  simp only [resolveModuleWith, him]
  rw [if_neg htag, hg]
  simp only [Bool.false_eq_true, if_false]
  rw [if_neg hne, hfail]
  rfl

/-- Witness for C3 (amended), matching the concrete scenario of the claim:
input "a.js", tag "1", base resolution failing. -/
theorem c3_amended_catch_fallback_witness :
    (resolveModule initState envC3 "a.js" none).1 = "./a.js?hacstag=1" :=
  (c3_amended_catch_fallback envC3 "a.js" "1" "nourl" none rfl (by decide) rfl
    (by decide) rfl).trans rfl

theorem guard_of_no_key (p : String) (h : jsIncludes p "hacstag" = false) :
    jsIncludes p "hacstag=" = false := by
  by_contra hcon
  rw [Bool.not_eq_false] at hcon
  have h2 : listHasSub ("hacstag".data ++ ['=']) p.data = true := hcon
  have h3 := listHasSub_of_append_left "hacstag".data ['='] p.data h2
  have h4 : listHasSub "hacstag".data p.data = false := h
  rw [h4] at h3
  exact absurd h3 (by simp)

/-- C4: for an input that is a full URL with its own scheme and without the
tag key, and a discovered tag, resolveModule keeps the URL absolute (it is
parsed ignoring the base, so it is never re-based against the module's own
location), the result still starts with the input's scheme, and the
result's query parameters are exactly the input's parameters plus the tag
parameter.  The base reference (import.meta.url) is assumed parseable, as
the host guarantees for a module's own URL. -/
theorem c4_scheme_preservation (env : Env) (p : String) (b : Option String)
    (t imu : String) (pu bo : URLModel)
    (hd : getHacstagFresh env = some t)
    (hp : parseURL p none = some pu)
    (hsub : jsIncludes p "hacstag" = false)
    (him : env.importMetaUrl = some imu) (hne : imu ≠ "")
    (hbase : parseURL (effectiveBase b imu) none = some bo) :
    (resolveModule initState env p b).1 =
      URLModel.href { pu with query := setParam "hacstag" t pu.query } ∧
    jsStartsWith (resolveModule initState env p b).1 (pu.scheme ++ "://") = true ∧
    resultParams (resolveModule initState env p b).1 = pu.query ++ [("hacstag", t)] := by
  obtain ⟨htne, htamp⟩ := getHacstagFresh_props env t hd
  have hsub' : listHasSub "hacstag".data p.data = false := hsub
  have hguard : jsIncludes p "hacstag=" = false := guard_of_no_key p hsub
  have hres : (resolveModule initState env p b).1 =
      URLModel.href { pu with query := setParam "hacstag" t pu.query } := by
    rw [resolveModule_fst, getHacstag_init_fst, hd]
    show resolveModuleWith (some t) env p b = _
    simp only [resolveModuleWith, him]
    rw [if_neg htne, hguard]
    simp only [Bool.false_eq_true, if_false]
    rw [if_neg hne]
    have hc : urlConstruct p (effectiveBase b imu) = some pu := by
      simp only [urlConstruct, hbase]
      exact parseURL_abs p pu hp (some bo)
    rw [hc]
  have hok_pu : URLOK pu := parseURL_ok p none (by rintro b' ⟨⟩) pu hp
  have hwf2 : WFParams (setParam "hacstag" t pu.query) :=
    wf_setParam "hacstag" t pu.query hok_pu.2.2.2
      ⟨show '&' ∉ ("hacstag" : String).data by decide,
       show '=' ∉ ("hacstag" : String).data by decide, htamp⟩
  have hok2 : URLOK { pu with query := setParam "hacstag" t pu.query } :=
    ⟨hok_pu.1, hok_pu.2.1, hok_pu.2.2.1, hwf2⟩
  have hkeys : ∀ kv ∈ pu.query, kv.1 ≠ "hacstag" := fun kv hkv =>
    key_ne_of_no_sub p.data hsub' kv.1 (parseURL_abs_key_sub p pu hp kv hkv)
  have hset : setParam "hacstag" t pu.query = pu.query ++ [("hacstag", t)] :=
    setParam_of_not_mem "hacstag" t pu.query hkeys
  refine ⟨hres, ?_, ?_⟩
  · rw [hres]
    show listIsPre (pu.scheme ++ "://").data
      (URLModel.href { pu with query := setParam "hacstag" t pu.query }).data = true
    rw [listIsPre_iff]
    refine ⟨pu.host.data ++ (pu.pathname.data ++
      (URLModel.searchStr { pu with query := setParam "hacstag" t pu.query }).data), ?_⟩
    show (pu.scheme ++ "://").data ++ _ =
      (pu.scheme ++ "://" ++ pu.host ++ pu.pathname ++
        URLModel.searchStr { pu with query := setParam "hacstag" t pu.query }).data
    simp [strDataAppend, List.append_assoc]
  · rw [hres, resultParams_href _ hok2 (setParam_ne_nil "hacstag" t pu.query)]
    exact hset

/- A concrete environment whose module URL carries tag "7". -/
def envC4 : Env :=
  ⟨some "https://h/dist/utils/simon42-module-loader.js?hacstag=7", false, [], none⟩

/-- Witness for C4: a cross-origin full URL keeps its scheme and query and
only gains the tag parameter. -/
theorem c4_scheme_preservation_witness :
    (resolveModule initState envC4 "https://other.example/x.js?a=1" none).1 =
      "https://other.example/x.js?a=1&hacstag=7" ∧
    jsStartsWith (resolveModule initState envC4 "https://other.example/x.js?a=1" none).1
      "https://" = true := by
  have h := c4_scheme_preservation envC4 "https://other.example/x.js?a=1" none "7"
    "https://h/dist/utils/simon42-module-loader.js?hacstag=7"
    ⟨"https", "other.example", "/x.js", [("a", "1")]⟩
    ⟨"https", "h", "/dist/utils/simon42-module-loader.js", [("hacstag", "7")]⟩
    rfl rfl (by decide) rfl (by decide) rfl
  exact ⟨h.1.trans rfl, h.2.1⟩

/- A concrete environment whose module URL carries tag "9". -/
def envC6 : Env := ⟨some "https://h/dist/m.js?hacstag=9", false, [], none⟩

/-- Counterexample to C6 as stated: the path "a.js?xhacstag" does not contain
the tag parameter key "hacstag=" (there is no '='), yet the resolved string
contains two occurrences of "hacstag=": URLSearchParams serializes the
empty-valued parameter "xhacstag" as "xhacstag=", and the tag is appended
after it. -/
theorem c6_counterexample :
    jsIncludes "a.js?xhacstag" "hacstag=" = false ∧
    (getHacstag initState envC6).1 = some "9" ∧
    (resolveModule initState envC6 "a.js?xhacstag" none).1 =
      "https://h/dist/a.js?xhacstag=&hacstag=9" ∧
    countOccur "hacstag=".data ("https://h/dist/a.js?xhacstag=&hacstag=9").data = 2 :=
  ⟨by decide, rfl, rfl, by decide⟩

theorem appendBranch (p tagv : String)
    (hp : listHasSub "hacstag".data p.data = false) (tamp : '&' ∉ tagv.data)
    (q : String) (hq : q = p ∨ q = "./" ++ p) :
    countKey "hacstag"
        (resultParams (q ++ (if hasQm p then "&" else "?") ++ "hacstag=" ++ tagv)) = 1 ∧
      getParam "hacstag"
        (resultParams (q ++ (if hasQm p then "&" else "?") ++ "hacstag=" ++ tagv)) = some tagv := by
  rcases hq with rfl | rfl
  · exact appendResultParams q tagv hp tamp
  · rw [show (if hasQm p then ("&" : String) else "?") =
        (if hasQm ("./" ++ p) then "&" else "?") from by rw [hasQm_dotslash]]
    exact appendResultParams ("./" ++ p) tagv (hacstag_sub_dotslash p hp) tamp

/-- C6 (amended): for every discovered tag T and every path containing no
occurrence of "hacstag" at all (not merely no "hacstag="), the resolved
string's query binds the key hacstag exactly once, and to the value T; the
original statement fails at substring level because a parameter name merely
containing "hacstag" is serialized with a trailing '='. -/
theorem c6_amended_round_trip (env : Env) (p : String) (b : Option String) (t : String)
    (hd : getHacstagFresh env = some t)
    (hp : jsIncludes p "hacstag" = false) :
    countKey "hacstag" (resultParams ((resolveModule initState env p b).1)) = 1 ∧
    getParam "hacstag" (resultParams ((resolveModule initState env p b).1)) = some t := by
  obtain ⟨htne, htamp⟩ := getHacstagFresh_props env t hd
  have hp' : listHasSub "hacstag".data p.data = false := hp
  have hguard : jsIncludes p "hacstag=" = false := guard_of_no_key p hp
  rw [resolveModule_fst, getHacstag_init_fst, hd]
  show countKey "hacstag" (resultParams (resolveModuleWith (some t) env p b)) = 1 ∧
    getParam "hacstag" (resultParams (resolveModuleWith (some t) env p b)) = some t
  cases him : env.importMetaUrl with
  | none =>
    have hres : resolveModuleWith (some t) env p b = noMetaAppend p t := by
      simp only [resolveModuleWith, him]
      rw [if_neg htne, hguard]
      simp only [Bool.false_eq_true, if_false]
    rw [hres]
    have hnm : noMetaAppend p t =
        (if jsStartsWith p "./" || jsStartsWith p "../" ||
            jsStartsWith p "/" || startsWithHttp p
         then p else "./" ++ p) ++ (if hasQm p then "&" else "?") ++ "hacstag=" ++ t := rfl
    rw [hnm]
    by_cases hcond : (jsStartsWith p "./" || jsStartsWith p "../" ||
        jsStartsWith p "/" || startsWithHttp p) = true
    · rw [if_pos hcond]
      exact appendBranch p t hp' htamp p (Or.inl rfl)
    · rw [if_neg hcond]
      exact appendBranch p t hp' htamp ("./" ++ p) (Or.inr rfl)
  | some imu =>
    by_cases hie : imu = ""
    · have hres : resolveModuleWith (some t) env p b = noMetaAppend p t := by
        simp only [resolveModuleWith, him]
        rw [if_neg htne, hguard]
        simp only [Bool.false_eq_true, if_false]
        rw [if_pos hie]
      rw [hres]
      have hnm : noMetaAppend p t =
          (if jsStartsWith p "./" || jsStartsWith p "../" ||
              jsStartsWith p "/" || startsWithHttp p
           then p else "./" ++ p) ++ (if hasQm p then "&" else "?") ++ "hacstag=" ++ t := rfl
      rw [hnm]
      by_cases hcond : (jsStartsWith p "./" || jsStartsWith p "../" ||
          jsStartsWith p "/" || startsWithHttp p) = true
      · rw [if_pos hcond]
        exact appendBranch p t hp' htamp p (Or.inl rfl)
      · rw [if_neg hcond]
        exact appendBranch p t hp' htamp ("./" ++ p) (Or.inr rfl)
    · cases hc : urlConstruct p (effectiveBase b imu) with
      | none =>
        have hres : resolveModuleWith (some t) env p b = catchAppend p t := by
          simp only [resolveModuleWith, him]
          rw [if_neg htne, hguard]
          simp only [Bool.false_eq_true, if_false]
          rw [if_neg hie, hc]
        rw [hres]
        have hca : catchAppend p t =
            (if jsStartsWith p "./" then p else "./" ++ p) ++
              (if hasQm p then "&" else "?") ++ "hacstag=" ++ t := rfl
        rw [hca]
        by_cases hcond : jsStartsWith p "./" = true
        · rw [if_pos hcond]
          exact appendBranch p t hp' htamp p (Or.inl rfl)
        · rw [if_neg hcond]
          exact appendBranch p t hp' htamp ("./" ++ p) (Or.inr rfl)
      | some r0 =>
        have hres : resolveModuleWith (some t) env p b =
            URLModel.href { r0 with query := setParam "hacstag" t r0.query } := by
          simp only [resolveModuleWith, him]
          rw [if_neg htne, hguard]
          simp only [Bool.false_eq_true, if_false]
          rw [if_neg hie, hc]
        rw [hres]
        have hok0 : URLOK r0 := by
          simp only [urlConstruct] at hc
          cases hb2 : parseURL (effectiveBase b imu) none with
          | none => rw [hb2] at hc; exact absurd hc (by simp)
          | some bo =>
            rw [hb2] at hc
            have hbok : URLOK bo := parseURL_ok (effectiveBase b imu) none (by rintro b' ⟨⟩) bo hb2
            exact parseURL_ok p (some bo) (by rintro b' ⟨rfl⟩; exact hbok) r0 hc
        have hwf2 : WFParams (setParam "hacstag" t r0.query) :=
          wf_setParam "hacstag" t r0.query hok0.2.2.2
            ⟨show '&' ∉ ("hacstag" : String).data by decide,
             show '=' ∉ ("hacstag" : String).data by decide, htamp⟩
        have hok2 : URLOK { r0 with query := setParam "hacstag" t r0.query } :=
          ⟨hok0.1, hok0.2.1, hok0.2.2.1, hwf2⟩
        rw [resultParams_href _ hok2 (setParam_ne_nil "hacstag" t r0.query)]
        exact ⟨countKey_setParam "hacstag" t r0.query, getParam_setParam "hacstag" t r0.query⟩

/-- Witness for C6 (amended) at a concrete environment and path. -/
theorem c6_amended_round_trip_witness :
    countKey "hacstag" (resultParams ((resolveModule initState envC6 "./b.js" none).1)) = 1 ∧
    getParam "hacstag" (resultParams ((resolveModule initState envC6 "./b.js" none).1)) =
      some "9" :=
  c6_amended_round_trip envC6 "./b.js" none "9" rfl (by decide)
